import Mathlib

/-!
Verification of the pyhwloc binding layer and of the hwloc core it re-exports.

The repository's own C sources (`src/ext/pyhwloc.c`, `src/pyhwloc.cc` and the
unnamed extension variants) are one-line wrappers around the hwloc library.
The bitmap algebra, topology tree queries, distributor and distance-matrix
helpers that the specification describes live in the external hwloc library,
whose sources are not part of this repository; those parts are modelled
from the specification text, as marked on each definition.  The wrapper
functions themselves (in particular `pyhwloc_bitmap_alloc` and
`pyhwloc_bitmap_alloc_full`) are embedded directly from the C sources.
-/

namespace Pyhwloc

/-! ## Bitmap model

Modelled from the spec: a Bitmap is an ordered set of unsigned integers,
unbounded above; the "full" bitmap is conceptually infinite and all-bits-set;
binary operations accept mismatched logical sizes and extend the shorter
operand with all-zero bits, except that the complement of a full set is
extended with all-one bits.  We realise this as a finite explicit prefix of
bits plus an `inf` flag giving the value of every bit beyond the prefix
(false for ordinary finite bitmaps, true for the full bitmap and for
complements of finite bitmaps). -/

structure HBitmap where
  bits : List Bool
  inf : Bool
  deriving Repr, DecidableEq

namespace HBitmap

/-- Membership: bit `i` of the bitmap; beyond the explicit prefix the
bit takes the extension value `inf`. -/
def bmem (a : HBitmap) (i : Nat) : Bool :=
  a.bits.getD i a.inf

/-- Modelled from the spec: the empty bitmap. -/
def bempty : HBitmap := ⟨[], false⟩

/-- Modelled from the spec: the full (conceptually infinite, all-bits-set)
bitmap. -/
def bfull : HBitmap := ⟨[], true⟩

/-- Pointwise binary operation on bitmaps; each operand is extended
beyond its own prefix with its own extension bit. -/
def bop (f : Bool → Bool → Bool) (a b : HBitmap) : HBitmap :=
  ⟨(List.range (max a.bits.length b.bits.length)).map
      (fun i => f (a.bmem i) (b.bmem i)),
   f a.inf b.inf⟩

/-- Modelled from the spec: set union. -/
def bunion (a b : HBitmap) : HBitmap := bop or a b

/-- Modelled from the spec: set intersection. -/
def binter (a b : HBitmap) : HBitmap := bop and a b

/-- Modelled from the spec: set difference. -/
def bdiff (a b : HBitmap) : HBitmap := bop (fun x y => x && !y) a b

/-- Modelled from the spec: complement; the extension bit flips, so the
complement of a finite bitmap is extended with all-one bits. -/
def bcompl (a : HBitmap) : HBitmap := ⟨a.bits.map not, !a.inf⟩

/-- Modelled from the spec: subset test, well-defined for mismatched sizes
including full bitmaps. -/
def bsubset (a b : HBitmap) : Bool :=
  ((List.range (max a.bits.length b.bits.length)).all
      (fun i => !(a.bmem i) || b.bmem i))
    && (!a.inf || b.inf)

/-- Set equality (the spec: equality is set equality, not representation
equality). -/
def SetEq (a b : HBitmap) : Prop := ∀ i, a.bmem i = b.bmem i

/-- The characteristic set of a bitmap, as an infinite set of naturals. -/
def toSet (a : HBitmap) : Set Nat := {i | a.bmem i = true}

/-- The ascending list of set-bit indices in the explicit prefix (for a
finite bitmap these are all the set bits). -/
def setIndices (a : HBitmap) : List Nat :=
  (List.range a.bits.length).filter (fun i => a.bmem i)

/-- For an infinite bitmap, the canonical start of the trailing all-one
open range: the prefix length minus the run of trailing one bits. -/
def infStart (a : HBitmap) : Nat :=
  a.bits.length - (a.bits.reverse.takeWhile (fun b => b)).length

end HBitmap

/-! ## Canonical string rendering and parsing

Modelled from the spec: `to_string` and `from_string` use the canonical
comma-separated range notation, each item being a single index `a`, a
closed range `b-c`, or a trailing open range `d-` for an infinite bitmap. -/

/-- The decimal digit character for `n < 10`. -/
def digitChar (n : Nat) : Char := Char.ofNat (48 + n)

/-- Decimal rendering of a natural number, most significant digit first. -/
def natDigits (n : Nat) : List Char :=
  if _h : n < 10 then [digitChar n]
  else natDigits (n / 10) ++ [digitChar (n % 10)]
  decreasing_by omega

/-- Numeric value of a decimal digit character. -/
def digitVal (c : Char) : Nat := c.toNat - 48

/-- Parse a non-empty all-digit token as a decimal natural number. -/
def parseDigits (cs : List Char) : Option Nat :=
  if cs = [] then none
  else if cs.all (fun c => c.isDigit) then
    some (cs.foldl (fun acc c => acc * 10 + digitVal c) 0)
  else none

/-- Join tokens with a separator character. -/
def joinSep (sep : Char) : List (List Char) → List Char
  | [] => []
  | [t] => t
  | t :: ts => t ++ sep :: joinSep sep ts

/-- Split a character list on a separator character (inverse of `joinSep`
for separator-free tokens). -/
def splitSep (sep : Char) : List Char → List (List Char)
  | [] => [[]]
  | c :: cs =>
    match splitSep sep cs with
    | [] => [[c]]
    | t :: ts => if c = sep then [] :: t :: ts else (c :: t) :: ts

/-- Group an ascending index list into maximal closed ranges. -/
def toRanges : List Nat → List (Nat × Nat)
  | [] => []
  | i :: rest =>
    match toRanges rest with
    | [] => [(i, i)]
    | (s, e) :: rs => if i + 1 = s then (i, e) :: rs else (i, i) :: (s, e) :: rs

/-- Bool test: does some range of the list contain `i`. -/
def inRanges (rs : List (Nat × Nat)) (i : Nat) : Bool :=
  rs.any (fun r => r.1 ≤ i && i ≤ r.2)

/-- Render one range item: `a` for a singleton, `b-c` for a closed range,
`d-` for an open (infinite) range. -/
def renderRange (r : Nat × Option Nat) : List Char :=
  match r.2 with
  | some e => if r.1 = e then natDigits r.1 else natDigits r.1 ++ '-' :: natDigits e
  | none => natDigits r.1 ++ ['-']

/-- Parse one range item (`a`, `b-c` or `d-`). -/
def parseRange (cs : List Char) : Option (Nat × Option Nat) :=
  match splitSep '-' cs with
  | [t] => (parseDigits t).map (fun n => (n, some n))
  | [t1, t2] =>
    match parseDigits t1 with
    | none => none
    | some a => if t2 = [] then some (a, none) else (parseDigits t2).map (fun b => (a, some b))
  | _ => none

/-- Upper end of a possibly-open range, used only to size the explicit
prefix of the reconstructed bitmap. -/
def rangeStop (r : Nat × Option Nat) : Nat := r.2.getD r.1

/-- Build a bitmap from parsed range items; any open range makes the
bitmap infinite. -/
def fromRanges (rs : List (Nat × Option Nat)) : HBitmap :=
  ⟨(List.range ((rs.map rangeStop).foldr max 0 + 1)).map
      (fun j => rs.any (fun r => r.1 ≤ j &&
        (match r.2 with
         | some e => j ≤ e
         | none => true))),
   rs.any (fun r => r.2.isNone)⟩

/-- Modelled from the spec: `to_string`, the canonical `a,b-c,d-` range
rendering of a bitmap (hwloc's list formatting; hwloc's own sources are not
part of this repository). -/
def to_string (a : HBitmap) : String :=
  if a.inf then
    let k := a.infStart
    ⟨joinSep ','
      ((toRanges ((List.range k).filter (fun i => a.bmem i))).map
          (fun r => renderRange (r.1, some r.2))
        ++ [renderRange (k, none)])⟩
  else
    ⟨joinSep ',' ((toRanges a.setIndices).map (fun r => renderRange (r.1, some r.2)))⟩

/-- Parse every comma-separated token as a range item; any failure fails
the whole parse. -/
def parseRanges : List (List Char) → Option (List (Nat × Option Nat))
  | [] => some []
  | t :: ts =>
    match parseRange t, parseRanges ts with
    | some r, some rs => some (r :: rs)
    | _, _ => none

/-- Modelled from the spec: `from_string`, parsing the canonical range
notation; the empty string denotes the empty bitmap, and a malformed
string is an InvalidArgument failure (`none`). -/
def from_string (s : String) : Option HBitmap :=
  if s.data = [] then some HBitmap.bempty
  else
    match parseRanges (splitSep ',' s.data) with
    | none => none
    | some rs => some (fromRanges rs)

/-! ## Topology tree model

Modelled from the spec: the topology tree is an owned, rooted multi-way tree
of objects, each carrying a cpuset; queries below are modelled from the
spec's query-engine section (hwloc's own sources are not part of this
repository).  Object cpusets are finite, so they are modelled as `Finset Nat`. -/

inductive HObj : Type where
  | mk (cpuset : Finset Nat) (children : List HObj)

/-- The object's cpuset. -/
def HObj.cpuset : HObj → Finset Nat
  | HObj.mk c _ => c

/-- The object's ordered children. -/
def HObj.children : HObj → List HObj
  | HObj.mk _ ch => ch

mutual
/-- Modelled from the spec: the covering-search descent — descend into the
child whose cpuset is a superset of the query cpuset; if no child
qualifies, the current object is the tightest covering object. -/
def coverDescend : HObj → Finset Nat → HObj
  | HObj.mk cp ch, set =>
    match coverStep ch set with
    | none => HObj.mk cp ch
    | some o => o

/-- One step of the covering search over the ordered child list: the tie
between several fully-covering children is broken by first-encountered
child order. -/
def coverStep : List HObj → Finset Nat → Option HObj
  | [], _ => none
  | c :: cs, set =>
    if set ⊆ c.cpuset then some (coverDescend c set) else coverStep cs set
end

/-- Modelled from the spec: `obj_covering_cpuset` — fails on an empty query
or a query not contained in the root cpuset, otherwise runs the descent
from the root. -/
def get_obj_covering_cpuset (root : HObj) (set : Finset Nat) : Option HObj :=
  if set = ∅ ∨ ¬ set ⊆ root.cpuset then none
  else some (coverDescend root set)

mutual
/-- The spec's containment invariant of a loaded tree: every child cpuset
is a subset of its parent's cpuset, recursively. -/
def nestedB : HObj → Bool
  | HObj.mk cp ch => nestedList cp ch

/-- Containment invariant over a child list. -/
def nestedList (cp : Finset Nat) : List HObj → Bool
  | [] => true
  | c :: cs => (decide (c.cpuset ⊆ cp) && nestedB c) && nestedList cp cs
end

/-! ## Common-ancestor model

Modelled from the spec: objects of one tree are identified by their paths
from the root (lists of child indices); walking to the parent removes the
last step.  The common-ancestor computation walks both ancestor chains to
equal depth, then upward in lock-step until the objects are identical. -/

/-- Modelled from the spec: `common_ancestor` on root paths. -/
def commonAncestor (p q : List Nat) : List Nat :=
  if p.length > q.length then commonAncestor p.dropLast q
  else if q.length > p.length then commonAncestor p q.dropLast
  else if p = q then p
  else commonAncestor p.dropLast q.dropLast
termination_by p.length + q.length
decreasing_by
  · have := List.length_dropLast p
    omega
  · have := List.length_dropLast q
    omega
  · have h1 := List.length_dropLast p
    have h2 := List.length_dropLast q
    rename_i hpq hqp hne
    have : p.length ≠ 0 := by
      intro h0
      have : p = [] := List.eq_nil_of_length_eq_zero h0
      have : q = [] := List.eq_nil_of_length_eq_zero (by omega)
      simp_all
    omega

/-- `p` is an ancestor-or-self of `q` in the path model. -/
def isAncestorPath (p q : List Nat) : Prop := ∃ r, q = p ++ r

/-! ## Object type registry model

Modelled from the spec: a closed set of object kinds with a canonical
depth ordering; a loaded topology has one type per depth, recorded
root-first in a level list. -/

inductive ObjType : Type where
  | machine
  | package
  | core
  | pu
  | l1cache
  | l2cache
  | group
  | numanode
  | bridge
  | pcidev
  | osdev
  | misc
  deriving DecidableEq, Repr

/-- Canonical depth ordering of object types (the spec's ordering rules). -/
def typeOrder : ObjType → Nat
  | .machine => 0
  | .group => 1
  | .package => 2
  | .numanode => 3
  | .l2cache => 4
  | .l1cache => 5
  | .core => 6
  | .pu => 7
  | .bridge => 8
  | .pcidev => 9
  | .osdev => 10
  | .misc => 11

/-- Result of depth-to-type resolution: either a single depth or one of
three distinct sentinels. -/
inductive TypeDepthResult : Type where
  | depth (d : Nat)
  | multiple
  | notFound
  | unknown
  deriving DecidableEq, Repr

/-- First index of the level list satisfying a predicate. -/
def findFirst (p : ObjType → Bool) : List ObjType → Option Nat
  | [] => none
  | lv :: rest => if p lv then some 0 else (findFirst p rest).map (· + 1)

/-- Modelled from the spec: `type_depth` — the single depth at which the
type exclusively occurs, or `multiple` / `notFound` / `unknown` when it
occurs at more than one depth, not at all, or is not recognized
(`none` models an unrecognized type code). -/
def type_depth (levels : List ObjType) (t : Option ObjType) : TypeDepthResult :=
  match t with
  | none => TypeDepthResult.unknown
  | some ty =>
    match findFirst (fun lv => decide (lv = ty)) levels with
    | none => TypeDepthResult.notFound
    | some d =>
      if levels.count ty = 1 then TypeDepthResult.depth d
      else TypeDepthResult.multiple

/-- Modelled from the spec: `type_or_below_depth` — when the type is
absent, walk the depth axis downward to the first occupied depth whose
type orders strictly below the query type; reaching the boundary without
success is a not-found outcome, never a clamped depth. -/
def type_or_below_depth (levels : List ObjType) (t : Option ObjType) :
    TypeDepthResult :=
  match t with
  | none => TypeDepthResult.unknown
  | some ty =>
    match type_depth levels (some ty) with
    | TypeDepthResult.notFound =>
      match findFirst (fun lv => decide (typeOrder ty < typeOrder lv)) levels with
      | some d => TypeDepthResult.depth d
      | none => TypeDepthResult.notFound
    | r => r

/-- Modelled from the spec: `type_or_above_depth` — when the type is
absent, walk the depth axis upward to the deepest occupied depth whose
type orders strictly above the query type; reaching the boundary without
success is a not-found outcome. -/
def type_or_above_depth (levels : List ObjType) (t : Option ObjType) :
    TypeDepthResult :=
  match t with
  | none => TypeDepthResult.unknown
  | some ty =>
    match type_depth levels (some ty) with
    | TypeDepthResult.notFound =>
      match findFirst (fun lv => decide (typeOrder lv < typeOrder ty)) levels.reverse with
      | some dr => TypeDepthResult.depth (levels.length - 1 - dr)
      | none => TypeDepthResult.notFound
    | r => r

/-! ## Distance matrices -/

/-- A distance matrix: a declared object type with its object count and
row-major values (the payload is irrelevant to removal-by-type). -/
structure DistancesS : Type where
  dtype : ObjType
  nbobjs : Nat
  values : List Nat
  deriving DecidableEq, Repr

/-- A topology's distance-matrix collection. -/
structure TopologyD : Type where
  distances : List DistancesS
  deriving DecidableEq, Repr

/-- Modelled from the spec: `remove_by_type` discards any distance matrix
whose declared type matches, leaving others untouched, and returns 0
(success) — also when nothing matches. -/
def distances_remove_by_type (topo : TopologyD) (ty : ObjType) :
    TopologyD × Int :=
  (⟨topo.distances.filter (fun d => !(decide (d.dtype = ty)))⟩, 0)

/-! ## Distributor model

Modelled from the spec: weights are the roots' cpuset cardinalities; each
root receives the chunk `ceil(W≤i·n/tot) - ceil(W<i·n/tot)` of the `n`
items (a quota apportionment whose chunks telescope to exactly `n`), and
each item assigned to a root receives that root's cpuset.  The recursive
subdivision below the roots (the `until` parameter) is not modelled;
items are emitted at root level. -/

/-- Ceiling division. -/
def ceilDiv (a b : Nat) : Nat := (a + b - 1) / b

/-- Per-root chunk list; `acc` is the weight already consumed. -/
def chunksAux (tot n : Nat) : Nat → List Nat → List Nat
  | _, [] => []
  | acc, w :: ws =>
    (ceilDiv ((acc + w) * n) tot - ceilDiv (acc * n) tot)
      :: chunksAux tot n (acc + w) ws

/-- Modelled from the spec: the per-root allocation of `n` items over the
given root weights. -/
def distribChunks (ws : List Nat) (n : Nat) : List Nat :=
  chunksAux ws.sum n 0 ws

/-- Output cpusets: each root contributes its chunk of copies of its
cpuset, in root order. -/
def distribAux (tot n : Nat) : Nat → List (Finset Nat) → List (Finset Nat)
  | _, [] => []
  | acc, r :: rs =>
    List.replicate (ceilDiv ((acc + r.card) * n) tot - ceilDiv (acc * n) tot) r
      ++ distribAux tot n (acc + r.card) rs

/-- Modelled from the spec: `distrib` over root cpusets at root level. -/
def distrib (roots : List (Finset Nat)) (n : Nat) : List (Finset Nat) :=
  distribAux ((roots.map Finset.card).sum) n 0 roots

/-- Union of a list of cpusets. -/
def unionAll (l : List (Finset Nat)) : Finset Nat := l.foldr (· ∪ ·) ∅

/-! ## Wrapper embedding: the bitmap allocation wrappers

Embedded from the C sources (src/unnamed/part_004).  The hwloc allocator
itself is outside the repository; it is abstracted as a state-passing
function whose success on each call is an oracle argument, returning a
fresh non-null pointer that becomes live. -/

/-- Allocator state: the last pointer handed out and the live pointers. -/
structure AllocState : Type where
  next : Nat
  live : List Nat
  deriving DecidableEq, Repr

/-- The abstract `hwloc_bitmap_alloc`: if the attempt succeeds (`ok`), a
fresh non-null pointer is returned and becomes live; otherwise NULL
(`none`) and the state is unchanged. -/
def hwloc_bitmap_alloc (ok : Bool) (s : AllocState) : Option Nat × AllocState :=
  if ok then (some (s.next + 1), ⟨s.next + 1, (s.next + 1) :: s.live⟩)
  else (none, s)

/-- The abstract `hwloc_bitmap_alloc_full`: same allocation behaviour (the
initial bitmap contents are irrelevant here). -/
def hwloc_bitmap_alloc_full (ok : Bool) (s : AllocState) : Option Nat × AllocState :=
  hwloc_bitmap_alloc ok s

/-- Embedded from src/unnamed/part_004 lines 19-27 (`pyhwloc_bitmap_alloc`):
allocate, then a stray `hwloc_bitmap_alloc_full()` call whose result is
discarded, then translate the first pointer into status and out-parameter. -/
def pyhwloc_bitmap_alloc (ok1 ok2 : Bool) (out : Option Nat) (s : AllocState) :
    Int × Option Nat × AllocState :=
  let pr := hwloc_bitmap_alloc ok1 s
  let pr2 := hwloc_bitmap_alloc_full ok2 pr.2
  match pr.1 with
  | none => (1, out, pr2.2)
  | some p => (0, some p, pr2.2)

/-- Embedded from src/unnamed/part_004 lines 29-37
(`pyhwloc_bitmap_alloc_full`): allocate a full bitmap and translate the
pointer into status and out-parameter. -/
def pyhwloc_bitmap_alloc_full (ok : Bool) (out : Option Nat) (s : AllocState) :
    Int × Option Nat × AllocState :=
  let pr := hwloc_bitmap_alloc_full ok s
  match pr.1 with
  | none => (1, out, pr.2)
  | some p => (0, some p, pr.2)

/-- The spec's view of `pyhwloc_bitmap_alloc` (refinement reference for
C1, following the spec's words: a thin pass-through with no independent
logic, translating the library's pointer result into a status code and an
out-parameter). -/
def pyhwloc_bitmap_alloc_spec_view (ok1 : Bool) (out : Option Nat)
    (s : AllocState) : Int × Option Nat × AllocState :=
  let pr := hwloc_bitmap_alloc ok1 s
  match pr.1 with
  | none => (1, out, pr.2)
  | some p => (0, some p, pr.2)

namespace HBitmap

theorem bmem_of_le (a : HBitmap) (i : Nat) (h : a.bits.length ≤ i) :
    a.bmem i = a.inf := by
  simp [bmem, List.getD_eq_getElem?_getD, List.getElem?_eq_none h]

theorem bmem_bop (f : Bool → Bool → Bool) (a b : HBitmap) (i : Nat) :
    (bop f a b).bmem i = f (a.bmem i) (b.bmem i) := by
  by_cases h : i < max a.bits.length b.bits.length
  · simp [bop, bmem, List.getD_eq_getElem?_getD, List.getElem?_map,
      List.getElem?_range h]
  · push_neg at h
    have hlen : ((List.range (max a.bits.length b.bits.length)).map
        (fun i => f (a.bmem i) (b.bmem i))).length ≤ i := by
      simpa using h
    have h1 : a.bits.length ≤ i := le_trans (le_max_left _ _) h
    have h2 : b.bits.length ≤ i := le_trans (le_max_right _ _) h
    show ((List.range _).map _).getD i (f a.inf b.inf) = _
    rw [List.getD_eq_getElem?_getD, List.getElem?_eq_none hlen]
    simp [bmem_of_le a i h1, bmem_of_le b i h2]

theorem bmem_bunion (a b : HBitmap) (i : Nat) :
    (bunion a b).bmem i = (a.bmem i || b.bmem i) := by
  simpa [Bool.or_comm] using bmem_bop or a b i

theorem bmem_binter (a b : HBitmap) (i : Nat) :
    (binter a b).bmem i = (a.bmem i && b.bmem i) := by
  simpa using bmem_bop and a b i

theorem bmem_bdiff (a b : HBitmap) (i : Nat) :
    (bdiff a b).bmem i = (a.bmem i && !(b.bmem i)) := by
  simpa using bmem_bop (fun x y => x && !y) a b i

theorem bmem_bcompl (a : HBitmap) (i : Nat) :
    (bcompl a).bmem i = !(a.bmem i) := by
  by_cases h : i < a.bits.length
  · simp [bcompl, bmem, List.getD_eq_getElem?_getD, List.getElem?_map,
      List.getElem?_eq_getElem h]
  · push_neg at h
    have hlen : (a.bits.map not).length ≤ i := by simpa using h
    show (a.bits.map not).getD i (!a.inf) = _
    rw [List.getD_eq_getElem?_getD, List.getElem?_eq_none hlen]
    simp [bmem_of_le a i h]

theorem bmem_bempty (i : Nat) : bempty.bmem i = false := by
  simp [bempty, bmem]

theorem bmem_bfull (i : Nat) : bfull.bmem i = true := by
  simp [bfull, bmem]

theorem bsubset_iff (a b : HBitmap) :
    bsubset a b = true ↔ ∀ i, a.bmem i = true → b.bmem i = true := by
  constructor
  · rintro h i hi
    rw [bsubset, Bool.and_eq_true, List.all_eq_true] at h
    by_cases hlt : i < max a.bits.length b.bits.length
    · have := h.1 i (List.mem_range.mpr hlt)
      rw [hi] at this
      simpa using this
    · push_neg at hlt
      have h1 : a.bits.length ≤ i := le_trans (le_max_left _ _) hlt
      have h2 : b.bits.length ≤ i := le_trans (le_max_right _ _) hlt
      rw [bmem_of_le a i h1] at hi
      rw [bmem_of_le b i h2]
      have h2' := h.2
      rw [Bool.or_eq_true] at h2'
      rcases h2' with h2' | h2'
      · rw [hi] at h2'; simp at h2'
      · exact h2'
  · intro h
    rw [bsubset, Bool.and_eq_true, List.all_eq_true]
    refine ⟨fun i _ => ?_, ?_⟩
    · cases hm : a.bmem i
      · simp
      · simp [h i hm]
    · cases hinf : a.inf
      · simp
      · have hi0 : a.bmem (max a.bits.length b.bits.length) = true := by
          rw [bmem_of_le a _ (le_max_left _ _), hinf]
        have := h _ hi0
        rw [bmem_of_le b _ (le_max_right _ _)] at this
        simp [this]

end HBitmap

/-! ## Lemmas: digits and tokens -/

theorem digitVal_digitChar : ∀ n, n < 10 → digitVal (digitChar n) = n := by decide

theorem isDigit_digitChar : ∀ n, n < 10 → (digitChar n).isDigit = true := by decide

theorem natDigits_all_digit : ∀ n, ∀ c ∈ natDigits n, c.isDigit = true := by
  intro n
  induction n using Nat.strong_induction_on with
  | _ n ih =>
    intro c hc
    rw [natDigits] at hc
    split at hc
    · next h =>
      rw [List.mem_singleton] at hc
      subst hc
      exact isDigit_digitChar n h
    · next h =>
      rw [List.mem_append] at hc
      rcases hc with hc | hc
      · exact ih (n / 10) (by omega) c hc
      · rw [List.mem_singleton] at hc
        subst hc
        exact isDigit_digitChar (n % 10) (by omega)

theorem natDigits_ne_nil (n : Nat) : natDigits n ≠ [] := by
  rw [natDigits]
  split
  · simp
  · simp

theorem foldl_natDigits : ∀ n acc,
    (natDigits n).foldl (fun a c => a * 10 + digitVal c) acc
      = acc * 10 ^ (natDigits n).length + n := by
  intro n
  induction n using Nat.strong_induction_on with
  | _ n ih =>
    intro acc
    rw [natDigits]
    split
    · next h =>
      simp [digitVal_digitChar n h]
    · next h =>
      rw [List.foldl_append, List.length_append, ih (n / 10) (by omega) acc]
      simp only [List.foldl_cons, List.foldl_nil, List.length_singleton]
      rw [digitVal_digitChar (n % 10) (by omega), pow_succ]
      have h2 : 10 * (n / 10) + n % 10 = n := Nat.div_add_mod n 10
      ring_nf
      omega

theorem parseDigits_natDigits (n : Nat) : parseDigits (natDigits n) = some n := by
  rw [parseDigits, if_neg (natDigits_ne_nil n)]
  rw [if_pos]
  · rw [foldl_natDigits n 0]
    simp
  · rw [List.all_eq_true]
    intro c hc
    exact natDigits_all_digit n c hc

theorem sep_not_mem_natDigits (n : Nat) (c : Char) (h : c.isDigit = false) :
    c ∉ natDigits n := by
  intro hc
  rw [natDigits_all_digit n c hc] at h
  simp at h

/-! ## Lemmas: splitSep and joinSep -/

theorem joinSep_single (sep : Char) (t : List Char) : joinSep sep [t] = t := rfl

theorem joinSep_cons_cons (sep : Char) (t u : List Char) (us : List (List Char)) :
    joinSep sep (t :: u :: us) = t ++ sep :: joinSep sep (u :: us) := rfl

theorem splitSep_ne_nil (sep : Char) (cs : List Char) : splitSep sep cs ≠ [] := by
  cases cs with
  | nil => simp [splitSep]
  | cons c cs =>
    rw [splitSep]
    split
    · simp
    · split <;> simp

theorem splitSep_no_sep (sep : Char) :
    ∀ t : List Char, sep ∉ t → splitSep sep t = [t] := by
  intro t
  induction t with
  | nil => intro _; rfl
  | cons c cs ih =>
    intro h
    rw [List.mem_cons, not_or] at h
    have hcs : ¬(c = sep) := fun hc => h.1 hc.symm
    rw [splitSep, ih h.2]
    simp [hcs]

theorem splitSep_append (sep : Char) :
    ∀ t rest : List Char, sep ∉ t →
      splitSep sep (t ++ sep :: rest) = t :: splitSep sep rest := by
  intro t
  induction t with
  | nil =>
    intro rest _
    rw [List.nil_append, splitSep]
    cases h : splitSep sep rest with
    | nil => exact absurd h (splitSep_ne_nil sep rest)
    | cons t ts => simp
  | cons c cs ih =>
    intro rest h
    rw [List.mem_cons, not_or] at h
    have hcs : ¬(c = sep) := fun hc => h.1 hc.symm
    rw [List.cons_append, splitSep, ih rest h.2]
    simp [hcs]

theorem splitSep_joinSep (sep : Char) :
    ∀ ts : List (List Char), ts ≠ [] → (∀ t ∈ ts, sep ∉ t) →
      splitSep sep (joinSep sep ts) = ts := by
  intro ts
  induction ts with
  | nil => intro h; exact absurd rfl h
  | cons t ts ih =>
    intro _ hsep
    cases ts with
    | nil =>
      rw [joinSep_single]
      exact splitSep_no_sep sep t (hsep t (List.mem_cons_self t []))
    | cons u us =>
      rw [joinSep_cons_cons, splitSep_append sep t _ (hsep t (List.mem_cons_self t _)),
        ih (List.cons_ne_nil u us) (fun v hv => hsep v (List.mem_cons_of_mem t hv))]

theorem joinSep_cons_ne_nil (sep : Char) (t : List Char) (ts : List (List Char))
    (h : t ≠ []) : joinSep sep (t :: ts) ≠ [] := by
  cases ts with
  | nil => rw [joinSep_single]; exact h
  | cons u us =>
    rw [joinSep_cons_cons]
    simp

/-! ## Lemmas: range grouping -/

theorem any_congr_mem {α : Type} (l : List α) (p q : α → Bool)
    (h : ∀ x ∈ l, p x = q x) : l.any p = l.any q := by
  induction l with
  | nil => rfl
  | cons x xs ih =>
    rw [List.any_cons, List.any_cons, h x (List.mem_cons_self x xs),
      ih (fun y hy => h y (List.mem_cons_of_mem x hy))]

theorem toRanges_cons_of_nil (x : Nat) (rest : List Nat)
    (h : toRanges rest = []) : toRanges (x :: rest) = [(x, x)] := by
  rw [toRanges, h]

theorem toRanges_cons_of_merge (x : Nat) (rest : List Nat) (s e : Nat)
    (rs : List (Nat × Nat)) (h : toRanges rest = (s, e) :: rs)
    (hm : x + 1 = s) : toRanges (x :: rest) = (x, e) :: rs := by
  rw [toRanges, h]
  exact if_pos hm

theorem toRanges_cons_of_gap (x : Nat) (rest : List Nat) (s e : Nat)
    (rs : List (Nat × Nat)) (h : toRanges rest = (s, e) :: rs)
    (hm : ¬x + 1 = s) : toRanges (x :: rest) = (x, x) :: (s, e) :: rs := by
  rw [toRanges, h]
  exact if_neg hm

theorem toRanges_eq_nil_iff (l : List Nat) : toRanges l = [] ↔ l = [] := by
  cases l with
  | nil => simp [toRanges]
  | cons x rest =>
    constructor
    · intro h
      rcases hR : toRanges rest with _ | ⟨⟨s, e⟩, rs⟩
      · rw [toRanges_cons_of_nil x rest hR] at h
        exact absurd h (List.cons_ne_nil _ _)
      · by_cases hm : x + 1 = s
        · rw [toRanges_cons_of_merge x rest s e rs hR hm] at h
          exact absurd h (List.cons_ne_nil _ _)
        · rw [toRanges_cons_of_gap x rest s e rs hR hm] at h
          exact absurd h (List.cons_ne_nil _ _)
    · intro h
      exact absurd h (List.cons_ne_nil x rest)

theorem toRanges_fst_le_snd :
    ∀ l : List Nat, ∀ r ∈ toRanges l, r.1 ≤ r.2 := by
  intro l
  induction l with
  | nil => intro r hr; simp [toRanges] at hr
  | cons x rest ih =>
    intro r hr
    rcases hR : toRanges rest with _ | ⟨⟨s, e⟩, rs⟩
    · rw [toRanges_cons_of_nil x rest hR, List.mem_singleton] at hr
      subst hr
      exact le_rfl
    · by_cases hm : x + 1 = s
      · rw [toRanges_cons_of_merge x rest s e rs hR hm] at hr
        rcases List.mem_cons.mp hr with hr | hr
        · subst hr
          have hse := ih (s, e) (by rw [hR]; exact List.mem_cons_self _ _)
          simp only at hse ⊢
          omega
        · exact ih r (by rw [hR]; exact List.mem_cons_of_mem _ hr)
      · rw [toRanges_cons_of_gap x rest s e rs hR hm] at hr
        rcases List.mem_cons.mp hr with hr | hr
        · subst hr; exact le_rfl
        · exact ih r (by rw [hR]; exact hr)

theorem inRanges_toRanges :
    ∀ l : List Nat, ∀ i, inRanges (toRanges l) i = true ↔ i ∈ l := by
  intro l
  induction l with
  | nil => intro i; simp [toRanges, inRanges]
  | cons x rest ih =>
    intro i
    rcases hR : toRanges rest with _ | ⟨⟨s, e⟩, rs⟩
    · have hrest : rest = [] := (toRanges_eq_nil_iff rest).mp hR
      subst hrest
      rw [toRanges_cons_of_nil x [] rfl]
      rw [inRanges, List.any_cons, List.any_nil, Bool.or_false, Bool.and_eq_true,
        decide_eq_true_eq, decide_eq_true_eq, List.mem_singleton]
      omega
    · have ihs := ih i
      rw [hR] at ihs
      have hse : s ≤ e :=
        toRanges_fst_le_snd rest (s, e) (by rw [hR]; exact List.mem_cons_self _ _)
      simp only [inRanges, List.any_cons, Bool.or_eq_true, Bool.and_eq_true,
        decide_eq_true_eq] at ihs
      by_cases hm : x + 1 = s
      · rw [toRanges_cons_of_merge x rest s e rs hR hm]
        simp only [inRanges, List.any_cons, Bool.or_eq_true, Bool.and_eq_true,
          decide_eq_true_eq, List.mem_cons]
        constructor
        · rintro (⟨h1, h2⟩ | hA)
          · rcases Nat.eq_or_lt_of_le h1 with h1 | h1
            · exact Or.inl h1.symm
            · exact Or.inr (ihs.mp (Or.inl ⟨by omega, h2⟩))
          · exact Or.inr (ihs.mp (Or.inr hA))
        · rintro (rfl | hr)
          · exact Or.inl ⟨le_rfl, by omega⟩
          · rcases ihs.mpr hr with ⟨h1, h2⟩ | hA
            · exact Or.inl ⟨by omega, h2⟩
            · exact Or.inr hA
      · rw [toRanges_cons_of_gap x rest s e rs hR hm]
        simp only [inRanges, List.any_cons, Bool.or_eq_true, Bool.and_eq_true,
          decide_eq_true_eq, List.mem_cons]
        constructor
        · rintro (⟨h1, h2⟩ | hA)
          · exact Or.inl (by omega)
          · exact Or.inr (ihs.mp hA)
        · rintro (rfl | hr)
          · exact Or.inl ⟨le_rfl, le_rfl⟩
          · exact Or.inr (ihs.mpr hr)

/-! ## Lemmas: render and parse of one range item -/

theorem renderRange_eq_of_single (s e : Nat) (h : s = e) :
    renderRange (s, some e) = natDigits s := by
  rw [renderRange]
  exact if_pos h

theorem renderRange_eq_of_pair (s e : Nat) (h : ¬ s = e) :
    renderRange (s, some e) = natDigits s ++ '-' :: natDigits e := by
  rw [renderRange]
  exact if_neg h

theorem parseRange_renderRange_closed (s e : Nat) :
    parseRange (renderRange (s, some e)) = some (s, some e) := by
  by_cases hse : s = e
  · subst hse
    rw [renderRange_eq_of_single s s rfl, parseRange,
      splitSep_no_sep '-' (natDigits s) (sep_not_mem_natDigits s '-' (by decide))]
    simp only [parseDigits_natDigits, Option.map_some']
  · rw [renderRange_eq_of_pair s e hse, parseRange,
      splitSep_append '-' (natDigits s) (natDigits e)
        (sep_not_mem_natDigits s '-' (by decide)),
      splitSep_no_sep '-' (natDigits e)
        (sep_not_mem_natDigits e '-' (by decide))]
    simp only [parseDigits_natDigits, if_neg (natDigits_ne_nil e), Option.map_some']

theorem comma_not_mem_renderRange_closed (s e : Nat) :
    ',' ∉ renderRange (s, some e) := by
  intro hc
  by_cases hse : s = e
  · rw [renderRange_eq_of_single s e hse] at hc
    exact sep_not_mem_natDigits s ',' (by decide) hc
  · rw [renderRange_eq_of_pair s e hse] at hc
    rcases List.mem_append.mp hc with hc | hc
    · exact sep_not_mem_natDigits s ',' (by decide) hc
    · rcases List.mem_cons.mp hc with hc | hc
      · exact absurd hc (by decide)
      · exact sep_not_mem_natDigits e ',' (by decide) hc

theorem renderRange_closed_ne_nil (s e : Nat) : renderRange (s, some e) ≠ [] := by
  by_cases hse : s = e
  · rw [renderRange_eq_of_single s e hse]
    exact natDigits_ne_nil s
  · rw [renderRange_eq_of_pair s e hse]
    simp

/-! ## Lemmas: fromRanges for closed ranges -/

theorem le_foldr_max : ∀ (l : List Nat) (x : Nat), x ∈ l → x ≤ l.foldr max 0 := by
  intro l
  induction l with
  | nil => intro x hx; simp at hx
  | cons y ys ih =>
    intro x hx
    rcases List.mem_cons.mp hx with hx | hx
    · subst hx
      exact le_max_left _ _
    · exact le_trans (ih x hx) (le_max_right _ _)

theorem fromRanges_inf_closed (rs : List (Nat × Option Nat))
    (h : ∀ r ∈ rs, (r.2 : Option Nat).isSome = true) :
    (fromRanges rs).inf = false := by
  show rs.any (fun r => r.2.isNone) = false
  rw [List.any_eq_false]
  intro r hr
  have hr2 := h r hr
  rcases r with ⟨s, _ | e⟩
  · simp at hr2
  · simp

theorem bmem_fromRanges_closed (rs : List (Nat × Option Nat))
    (h : ∀ r ∈ rs, (r.2 : Option Nat).isSome = true) (j : Nat) :
    (fromRanges rs).bmem j
      = rs.any (fun r => r.1 ≤ j && j ≤ rangeStop r) := by
  have hbound : ∀ r ∈ rs, rangeStop r ≤ (rs.map rangeStop).foldr max 0 := by
    intro r hr
    exact le_foldr_max _ _ (List.mem_map_of_mem rangeStop hr)
  by_cases hj : j < (rs.map rangeStop).foldr max 0 + 1
  · show ((List.range ((rs.map rangeStop).foldr max 0 + 1)).map
        (fun j => rs.any (fun r => r.1 ≤ j &&
          (match r.2 with
           | some e => j ≤ e
           | none => true)))).getD j (rs.any (fun r => r.2.isNone))
      = rs.any (fun r => r.1 ≤ j && j ≤ rangeStop r)
    rw [List.getD_eq_getElem?_getD, List.getElem?_map, List.getElem?_range hj]
    simp only [Option.map_some', Option.getD_some]
    refine any_congr_mem rs _ _ (fun r hr => ?_)
    have hr2 := h r hr
    rcases r with ⟨a, _ | b⟩
    · simp at hr2
    · rfl
  · push_neg at hj
    have hlen : (fromRanges rs).bits.length ≤ j := by
      show ((List.range _).map _).length ≤ j
      simp only [List.length_map, List.length_range]
      exact hj
    rw [HBitmap.bmem_of_le _ _ hlen, fromRanges_inf_closed rs h]
    symm
    rw [List.any_eq_false]
    intro r hr
    intro hcontra
    rw [Bool.and_eq_true, decide_eq_true_eq, decide_eq_true_eq] at hcontra
    have h1 := hbound r hr
    omega

/-! ## Lemmas: assembling the round trip -/

theorem bool_eq_of_iff {x y : Bool} (h : x = true ↔ y = true) : x = y := by
  cases x <;> cases y <;> simp_all

theorem any_map_comp {α β : Type} (f : α → β) (p : β → Bool) :
    ∀ l : List α, (l.map f).any p = l.any (fun x => p (f x)) := by
  intro l
  induction l with
  | nil => rfl
  | cons x xs ih => rw [List.map_cons, List.any_cons, List.any_cons, ih]

theorem mem_setIndices (a : HBitmap) (hfin : a.inf = false) (i : Nat) :
    i ∈ a.setIndices ↔ a.bmem i = true := by
  rw [HBitmap.setIndices, List.mem_filter, List.mem_range]
  constructor
  · exact fun h => h.2
  · intro h
    refine ⟨?_, h⟩
    by_contra hlen
    push_neg at hlen
    rw [HBitmap.bmem_of_le a i hlen, hfin] at h
    exact Bool.false_ne_true h

theorem parseRanges_map (tok : Nat × Nat → List Char)
    (h : ∀ r : Nat × Nat, parseRange (tok r) = some (r.1, some r.2)) :
    ∀ rs : List (Nat × Nat),
      parseRanges (rs.map tok) = some (rs.map (fun r => (r.1, some r.2))) := by
  intro rs
  induction rs with
  | nil => rfl
  | cons r rt ih =>
    rw [List.map_cons, parseRanges, h r, ih, List.map_cons]

theorem to_string_finite (a : HBitmap) (hfin : a.inf = false) :
    to_string a
      = ⟨joinSep ','
          ((toRanges a.setIndices).map (fun r => renderRange (r.1, some r.2)))⟩ := by
  rw [to_string, hfin]
  rfl

theorem from_string_mk (cs : List Char) :
    from_string ⟨cs⟩
      = (if cs = [] then some HBitmap.bempty
         else
           match parseRanges (splitSep ',' cs) with
           | none => none
           | some rs => some (fromRanges rs)) := rfl

/-! ## Lemmas: tree invariant and covering search -/

theorem nestedList_iff (cp : Finset Nat) :
    ∀ l : List HObj, nestedList cp l = true
      ↔ ∀ c ∈ l, c.cpuset ⊆ cp ∧ nestedB c = true := by
  intro l
  induction l with
  | nil => simp [nestedList]
  | cons c cs ih =>
    rw [nestedList, Bool.and_eq_true, Bool.and_eq_true, decide_eq_true_eq, ih]
    constructor
    · rintro ⟨⟨h1, h2⟩, h3⟩ x hx
      rcases List.mem_cons.mp hx with rfl | hx
      · exact ⟨h1, h2⟩
      · exact h3 x hx
    · intro h
      refine ⟨⟨(h c (List.mem_cons_self c cs)).1, (h c (List.mem_cons_self c cs)).2⟩, ?_⟩
      exact fun x hx => h x (List.mem_cons_of_mem c hx)

theorem nestedB_mk (cp : Finset Nat) (ch : List HObj) :
    nestedB (HObj.mk cp ch) = true
      ↔ ∀ c ∈ ch, c.cpuset ⊆ cp ∧ nestedB c = true := by
  rw [nestedB]
  exact nestedList_iff cp ch

theorem coverStep_none_iff (set : Finset Nat) :
    ∀ l : List HObj, coverStep l set = none ↔ ∀ c ∈ l, ¬ set ⊆ c.cpuset := by
  intro l
  induction l with
  | nil => simp [coverStep]
  | cons c cs ih =>
    rw [coverStep]
    by_cases hc : set ⊆ c.cpuset
    · rw [if_pos hc]
      constructor
      · intro h
        exact absurd h (by simp)
      · intro h
        exact absurd hc (h c (List.mem_cons_self c cs))
    · rw [if_neg hc, ih]
      constructor
      · intro h x hx
        rcases List.mem_cons.mp hx with rfl | hx
        · exact hc
        · exact h x hx
      · intro h x hx
        exact h x (List.mem_cons_of_mem c hx)

theorem coverStep_some (set : Finset Nat) :
    ∀ (l : List HObj) (r : HObj), coverStep l set = some r →
      ∃ c ∈ l, set ⊆ c.cpuset ∧ r = coverDescend c set := by
  intro l
  induction l with
  | nil => intro r hr; simp [coverStep] at hr
  | cons c cs ih =>
    intro r hr
    rw [coverStep] at hr
    by_cases hc : set ⊆ c.cpuset
    · rw [if_pos hc] at hr
      exact ⟨c, List.mem_cons_self c cs, hc, (Option.some_inj.mp hr).symm⟩
    · rw [if_neg hc] at hr
      rcases ih r hr with ⟨x, hx, hsub, hres⟩
      exact ⟨x, List.mem_cons_of_mem c hx, hsub, hres⟩

theorem coverDescend_spec_aux : ∀ (n : Nat) (o : HObj), sizeOf o = n →
    ∀ (set : Finset Nat), nestedB o = true → set ⊆ o.cpuset →
      set ⊆ (coverDescend o set).cpuset
        ∧ (coverDescend o set).cpuset ⊆ o.cpuset := by
  intro n
  induction n using Nat.strong_induction_on with
  | _ n ih =>
    rintro ⟨cp, ch⟩ hsz set hn hsub
    rw [coverDescend]
    rcases hcs : coverStep ch set with _ | r
    · exact ⟨hsub, Finset.Subset.refl _⟩
    · rcases coverStep_some set ch r hcs with ⟨c, hcmem, hcsub, rfl⟩
      have hcn : c.cpuset ⊆ cp ∧ nestedB c = true :=
        ((nestedB_mk cp ch).mp hn) c hcmem
      have hlt : sizeOf c < n := by
        subst hsz
        have h1 := List.sizeOf_lt_of_mem hcmem
        simp only [HObj.mk.sizeOf_spec]
        omega
      have IH := ih (sizeOf c) hlt c rfl set hcn.2 hcsub
      exact ⟨IH.1, Finset.Subset.trans IH.2 hcn.1⟩

theorem coverDescend_spec (o : HObj) (set : Finset Nat)
    (hn : nestedB o = true) (hsub : set ⊆ o.cpuset) :
    set ⊆ (coverDescend o set).cpuset
      ∧ (coverDescend o set).cpuset ⊆ o.cpuset :=
  coverDescend_spec_aux (sizeOf o) o rfl set hn hsub

/-! ## Lemmas: common ancestor on paths -/

theorem isAncestorPath_dropLast (p : List Nat) : isAncestorPath p.dropLast p :=
  ⟨p.drop (p.length - 1), by rw [List.dropLast_eq_take, List.take_append_drop]⟩

theorem isAncestorPath_trans {a b c : List Nat}
    (h1 : isAncestorPath a b) (h2 : isAncestorPath b c) : isAncestorPath a c := by
  rcases h1 with ⟨r1, rfl⟩
  rcases h2 with ⟨r2, rfl⟩
  exact ⟨r1 ++ r2, List.append_assoc a r1 r2⟩

theorem commonAncestor_refl (p : List Nat) : commonAncestor p p = p := by
  rw [commonAncestor]
  simp

theorem commonAncestor_comm (p q : List Nat) :
    commonAncestor p q = commonAncestor q p := by
  induction p, q using commonAncestor.induct with
  | case1 p q h ih =>
    rw [commonAncestor, if_pos h]
    conv_rhs => rw [commonAncestor]
    rw [if_neg (by omega), if_pos h]
    exact ih
  | case2 p q h1 h ih =>
    rw [commonAncestor, if_neg h1, if_pos h]
    conv_rhs => rw [commonAncestor]
    rw [if_pos h]
    exact ih
  | case3 p h1 h2 =>
    rfl
  | case4 p q h1 h2 h ih =>
    rw [commonAncestor, if_neg h1, if_neg h2, if_neg h]
    conv_rhs => rw [commonAncestor]
    rw [if_neg h2, if_neg h1, if_neg (fun hqp => h hqp.symm)]
    exact ih

theorem commonAncestor_ancestor (p q : List Nat) :
    isAncestorPath (commonAncestor p q) p
      ∧ isAncestorPath (commonAncestor p q) q := by
  induction p, q using commonAncestor.induct with
  | case1 p q h ih =>
    rw [commonAncestor, if_pos h]
    exact ⟨isAncestorPath_trans ih.1 (isAncestorPath_dropLast p), ih.2⟩
  | case2 p q h1 h ih =>
    rw [commonAncestor, if_neg h1, if_pos h]
    exact ⟨ih.1, isAncestorPath_trans ih.2 (isAncestorPath_dropLast q)⟩
  | case3 p h1 h2 =>
    rw [commonAncestor_refl]
    exact ⟨⟨[], by simp⟩, ⟨[], by simp⟩⟩
  | case4 p q h1 h2 h ih =>
    rw [commonAncestor, if_neg h1, if_neg h2, if_neg h]
    exact ⟨isAncestorPath_trans ih.1 (isAncestorPath_dropLast p),
      isAncestorPath_trans ih.2 (isAncestorPath_dropLast q)⟩

/-! ## Lemmas: findFirst -/

theorem findFirst_eq_none_iff (p : ObjType → Bool) :
    ∀ l : List ObjType, findFirst p l = none ↔ ∀ lv ∈ l, ¬ p lv = true := by
  intro l
  induction l with
  | nil => simp [findFirst]
  | cons lv rest ih =>
    rw [findFirst]
    by_cases hp : p lv = true
    · rw [if_pos hp]
      constructor
      · intro h
        exact absurd h (by simp)
      · intro h
        exact absurd hp (h lv (List.mem_cons_self _ _))
    · rw [if_neg hp]
      constructor
      · intro h x hx
        rw [Option.map_eq_none'] at h
        rcases List.mem_cons.mp hx with rfl | hx
        · exact hp
        · exact (ih.mp h) x hx
      · intro h
        rw [Option.map_eq_none']
        exact ih.mpr (fun x hx => h x (List.mem_cons_of_mem _ hx))

theorem findFirst_eq_some (p : ObjType → Bool) :
    ∀ (l : List ObjType) (d : Nat), findFirst p l = some d →
      d < l.length
        ∧ (∃ lv, l[d]? = some lv ∧ p lv = true)
        ∧ ∀ j < d, ∀ lv2, l[j]? = some lv2 → ¬ p lv2 = true := by
  intro l
  induction l with
  | nil => intro d hd; simp [findFirst] at hd
  | cons lv rest ih =>
    intro d hd
    rw [findFirst] at hd
    by_cases hp : p lv = true
    · rw [if_pos hp] at hd
      have hd0 : d = 0 := (Option.some_inj.mp hd).symm
      subst hd0
      refine ⟨by simp, ⟨lv, by simp, hp⟩, ?_⟩
      intro j hj
      exact absurd hj (Nat.not_lt_zero j)
    · rw [if_neg hp] at hd
      rcases Option.map_eq_some'.mp hd with ⟨d0, hd0, rfl⟩
      rcases ih d0 hd0 with ⟨hlen, ⟨lv0, hget, hplv⟩, hmin⟩
      refine ⟨by simpa using Nat.succ_lt_succ hlen, ⟨lv0, by simpa using hget, hplv⟩, ?_⟩
      intro j hj lv2 hget2
      cases j with
      | zero =>
        intro hplv2
        have hlv : lv = lv2 := by simpa using hget2
        rw [← hlv] at hplv2
        exact hp hplv2
      | succ j0 =>
        rw [List.getElem?_cons_succ] at hget2
        exact hmin j0 (by omega) lv2 hget2

/-! ## Lemmas: ceiling division and chunk sums -/

theorem ceilDiv_mono (a b tot : Nat) (h : a ≤ b) : ceilDiv a tot ≤ ceilDiv b tot :=
  Nat.div_le_div_right (by omega)

theorem ceilDiv_zero_num (tot : Nat) : ceilDiv 0 tot = 0 := by
  cases tot with
  | zero => rfl
  | succ m =>
    rw [ceilDiv]
    exact Nat.div_eq_of_lt (by omega)

theorem ceilDiv_mul_self (tot n : Nat) (h : 0 < tot) : ceilDiv (tot * n) tot = n := by
  rw [ceilDiv]
  have he : tot * n + tot - 1 = tot * n + (tot - 1) := by omega
  rw [he, Nat.mul_add_div h, Nat.div_eq_of_lt (by omega), Nat.add_zero]

theorem chunksAux_sum (tot n : Nat) :
    ∀ (ws : List Nat) (acc : Nat),
      (chunksAux tot n acc ws).sum
        = ceilDiv ((acc + ws.sum) * n) tot - ceilDiv (acc * n) tot := by
  intro ws
  induction ws with
  | nil =>
    intro acc
    simp [chunksAux]
  | cons w ws ih =>
    intro acc
    rw [chunksAux, List.sum_cons, ih (acc + w)]
    have hre : acc + (w :: ws).sum = acc + w + ws.sum := by
      rw [List.sum_cons]
      omega
    rw [hre]
    have h1 : ceilDiv (acc * n) tot ≤ ceilDiv ((acc + w) * n) tot :=
      ceilDiv_mono _ _ _ (Nat.mul_le_mul_right n (by omega))
    have h2 : ceilDiv ((acc + w) * n) tot ≤ ceilDiv ((acc + w + ws.sum) * n) tot :=
      ceilDiv_mono _ _ _ (Nat.mul_le_mul_right n (by omega))
    omega

/-! ## Lemmas: distributor outputs -/

theorem distribAux_length (tot n : Nat) :
    ∀ (roots : List (Finset Nat)) (acc : Nat),
      (distribAux tot n acc roots).length
        = (chunksAux tot n acc (roots.map Finset.card)).sum := by
  intro roots
  induction roots with
  | nil => intro acc; rfl
  | cons r rs ih =>
    intro acc
    rw [distribAux, List.length_append, List.length_replicate, List.map_cons,
      chunksAux, List.sum_cons, ih (acc + r.card)]

theorem unionAll_cons (s : Finset Nat) (ss : List (Finset Nat)) :
    unionAll (s :: ss) = s ∪ unionAll ss := rfl

theorem mem_unionAll (x : Nat) :
    ∀ l : List (Finset Nat), x ∈ unionAll l ↔ ∃ s ∈ l, x ∈ s := by
  intro l
  induction l with
  | nil => simp [unionAll]
  | cons s ss ih =>
    rw [unionAll_cons, Finset.mem_union, ih]
    constructor
    · rintro (hx | ⟨t, ht, hx⟩)
      · exact ⟨s, List.mem_cons_self s ss, hx⟩
      · exact ⟨t, List.mem_cons_of_mem s ht, hx⟩
    · rintro ⟨t, ht, hx⟩
      rcases List.mem_cons.mp ht with rfl | ht
      · exact Or.inl hx
      · exact Or.inr ⟨t, ht, hx⟩

theorem distribAux_union_subset (tot n : Nat) :
    ∀ (roots : List (Finset Nat)) (acc : Nat) (x : Nat),
      x ∈ unionAll (distribAux tot n acc roots) → x ∈ unionAll roots := by
  intro roots
  induction roots with
  | nil =>
    intro acc x hx
    exact hx
  | cons r rs ih =>
    intro acc x hx
    rw [distribAux] at hx
    rcases (mem_unionAll x _).mp hx with ⟨s, hs, hxs⟩
    rcases List.mem_append.mp hs with hs | hs
    · have hsr : s = r := (List.eq_of_mem_replicate hs)
      subst hsr
      rw [unionAll_cons, Finset.mem_union]
      exact Or.inl hxs
    · have hrec : x ∈ unionAll (distribAux tot n (acc + r.card) rs) :=
        (mem_unionAll x _).mpr ⟨s, hs, hxs⟩
      rw [unionAll_cons, Finset.mem_union]
      exact Or.inr (ih (acc + r.card) x hrec)

theorem distribAux_union_eq_of_pos (tot n : Nat) :
    ∀ (roots : List (Finset Nat)) (acc : Nat),
      (∀ c ∈ chunksAux tot n acc (roots.map Finset.card), 0 < c) →
        unionAll (distribAux tot n acc roots) = unionAll roots := by
  intro roots
  induction roots with
  | nil => intro acc _; rfl
  | cons r rs ih =>
    intro acc hpos
    rw [List.map_cons, chunksAux] at hpos
    have hc : 0 < ceilDiv ((acc + r.card) * n) tot - ceilDiv (acc * n) tot :=
      hpos _ (List.mem_cons_self _ _)
    have hrest := ih (acc + r.card) (fun c hc2 => hpos c (List.mem_cons_of_mem _ hc2))
    rw [distribAux, unionAll_cons, ← hrest]
    ext x
    rw [Finset.mem_union, mem_unionAll, mem_unionAll]
    constructor
    · rintro ⟨s, hs, hxs⟩
      rcases List.mem_append.mp hs with hs | hs
      · have hsr : s = r := List.eq_of_mem_replicate hs
        subst hsr
        exact Or.inl hxs
      · exact Or.inr ⟨s, hs, hxs⟩
    · rintro (hx | ⟨s, hs, hxs⟩)
      · exact ⟨r, List.mem_append.mpr (Or.inl (List.mem_replicate.mpr ⟨by omega, rfl⟩)), hx⟩
      · exact ⟨s, List.mem_append.mpr (Or.inr hs), hxs⟩

/-! ## Lemmas: type-depth resolution -/

theorem type_depth_some_none (levels : List ObjType) (ty : ObjType)
    (hf : findFirst (fun lv => decide (lv = ty)) levels = none) :
    type_depth levels (some ty) = TypeDepthResult.notFound := by
  simp only [type_depth, hf]

theorem type_depth_some_found (levels : List ObjType) (ty : ObjType) (d : Nat)
    (hf : findFirst (fun lv => decide (lv = ty)) levels = some d) :
    type_depth levels (some ty)
      = if levels.count ty = 1 then TypeDepthResult.depth d
        else TypeDepthResult.multiple := by
  simp only [type_depth, hf]

theorem findFirst_type_none_of_count (levels : List ObjType) (ty : ObjType)
    (h : levels.count ty = 0) :
    findFirst (fun lv => decide (lv = ty)) levels = none := by
  rw [findFirst_eq_none_iff]
  intro lv hlv
  rw [decide_eq_true_eq]
  intro hrfl
  subst hrfl
  rw [List.count_eq_zero] at h
  exact h hlv

theorem findFirst_type_some_of_count (levels : List ObjType) (ty : ObjType)
    (h : 0 < levels.count ty) :
    ∃ d, findFirst (fun lv => decide (lv = ty)) levels = some d := by
  rcases hf : findFirst (fun lv => decide (lv = ty)) levels with _ | d
  · rw [findFirst_eq_none_iff] at hf
    have hmem : ty ∈ levels := by
      rw [← List.count_pos_iff]
      exact h
    exact absurd (by rw [decide_eq_true_eq]) (hf ty hmem)
  · exact ⟨d, rfl⟩

theorem type_or_below_some_notFound (levels : List ObjType) (ty : ObjType)
    (hnf : type_depth levels (some ty) = TypeDepthResult.notFound) :
    type_or_below_depth levels (some ty)
      = match findFirst (fun lv => decide (typeOrder ty < typeOrder lv)) levels with
        | some d => TypeDepthResult.depth d
        | none => TypeDepthResult.notFound := by
  simp only [type_or_below_depth, hnf]

theorem type_or_above_some_notFound (levels : List ObjType) (ty : ObjType)
    (hnf : type_depth levels (some ty) = TypeDepthResult.notFound) :
    type_or_above_depth levels (some ty)
      = match findFirst (fun lv => decide (typeOrder lv < typeOrder ty))
            levels.reverse with
        | some dr => TypeDepthResult.depth (levels.length - 1 - dr)
        | none => TypeDepthResult.notFound := by
  simp only [type_or_above_depth, hnf]

end Pyhwloc

open Pyhwloc Pyhwloc.HBitmap

/-- C2: for all bitmaps `a` and `b` (including the empty and the full
bitmap): `union(a,b)` equals `union(b,a)`; `intersect(a,a)` equals `a`;
`difference(a,a)` equals the empty bitmap; and `intersect(a,b)` is a subset
of `a` — where equality is set equality. -/
theorem bitmap_algebra_laws :
    ∀ a b : HBitmap,
      SetEq (bunion a b) (bunion b a)
      ∧ SetEq (binter a a) a
      ∧ SetEq (bdiff a a) bempty
      ∧ bsubset (binter a b) a = true := by
  intro a b
  refine ⟨fun i => ?_, fun i => ?_, fun i => ?_, ?_⟩
  · rw [bmem_bunion, bmem_bunion, Bool.or_comm]
  · rw [bmem_binter, Bool.and_self]
  · rw [bmem_bdiff, bmem_bempty]
    cases a.bmem i <;> rfl
  · rw [bsubset_iff]
    intro i hi
    rw [bmem_binter, Bool.and_eq_true] at hi
    exact hi.1

/-- C7: binary bitmap operations accept operands of mismatched logical
sizes; bits beyond a bitmap's explicit prefix take its extension value —
all-zero for ordinary finite bitmaps, all-one for the full set and for the
complement of a finite set — and under this extension union, intersection,
difference, complement and the subset test agree with the corresponding
operation on the infinite characteristic sets. -/
theorem bitmap_ops_match_characteristic_sets :
    ∀ a b : HBitmap,
      toSet (bunion a b) = toSet a ∪ toSet b
      ∧ toSet (binter a b) = toSet a ∩ toSet b
      ∧ toSet (bdiff a b) = toSet a \ toSet b
      ∧ toSet (bcompl a) = (toSet a)ᶜ
      ∧ (bsubset a b = true ↔ toSet a ⊆ toSet b)
      ∧ (a.inf = false → ∀ i, a.bits.length ≤ i → a.bmem i = false)
      ∧ (a.inf = true → ∀ i, a.bits.length ≤ i → a.bmem i = true)
      ∧ (bcompl a).inf = !a.inf
      ∧ bfull.inf = true := by
  intro a b
  refine ⟨?_, ?_, ?_, ?_, ?_, ?_, ?_, rfl, rfl⟩
  · ext i
    simp [toSet, bmem_bunion]
  · ext i
    simp [toSet, bmem_binter]
  · ext i
    simp [toSet, bmem_bdiff]
  · ext i
    simp [toSet, bmem_bcompl]
  · rw [bsubset_iff]
    constructor
    · intro h i hi
      exact h i hi
    · intro h i hi
      exact h hi
  · intro h i hi
    rw [bmem_of_le a i hi, h]
  · intro h i hi
    rw [bmem_of_le a i hi, h]

/-- C3: for every finite bitmap `a`, including the empty bitmap, parsing
the canonical string rendering round-trips: `from_string (to_string a)`
succeeds and yields a bitmap set-equal to `a`. -/
theorem bitmap_string_roundtrip (a : HBitmap) (hfin : a.inf = false) :
    ∃ b, from_string (to_string a) = some b ∧ SetEq b a := by
  rcases hl : toRanges a.setIndices with _ | ⟨r0, rt⟩
  · have hempty : a.setIndices = [] := (toRanges_eq_nil_iff _).mp hl
    refine ⟨bempty, ?_, ?_⟩
    · rw [to_string_finite a hfin, hl, List.map_nil, from_string_mk]
      exact if_pos rfl
    · intro i
      rw [bmem_bempty]
      symm
      by_contra hmem
      rw [Bool.not_eq_false] at hmem
      have hin := (mem_setIndices a hfin i).mpr hmem
      rw [hempty] at hin
      simp at hin
  · have hmap : (toRanges a.setIndices).map (fun r => renderRange (r.1, some r.2))
        = renderRange (r0.1, some r0.2)
            :: rt.map (fun r => renderRange (r.1, some r.2)) := by
      rw [hl, List.map_cons]
    have hne : joinSep ','
        ((toRanges a.setIndices).map (fun r => renderRange (r.1, some r.2))) ≠ [] := by
      rw [hmap]
      exact joinSep_cons_ne_nil ',' _ _ (renderRange_closed_ne_nil r0.1 r0.2)
    have hsplit : splitSep ','
        (joinSep ',' ((toRanges a.setIndices).map (fun r => renderRange (r.1, some r.2))))
        = (toRanges a.setIndices).map (fun r => renderRange (r.1, some r.2)) := by
      apply splitSep_joinSep
      · rw [hmap]
        exact List.cons_ne_nil _ _
      · intro t ht
        rcases List.mem_map.mp ht with ⟨r, _, rfl⟩
        exact comma_not_mem_renderRange_closed r.1 r.2
    have hparse : parseRanges
        ((toRanges a.setIndices).map (fun r => renderRange (r.1, some r.2)))
        = some ((toRanges a.setIndices).map (fun r => (r.1, some r.2))) :=
      parseRanges_map _ (fun r => parseRange_renderRange_closed r.1 r.2) _
    refine ⟨fromRanges ((toRanges a.setIndices).map (fun r => (r.1, some r.2))), ?_, ?_⟩
    · rw [to_string_finite a hfin, from_string_mk, if_neg hne, hsplit, hparse]
    · intro i
      have hclosed : ∀ r ∈ (toRanges a.setIndices).map
          (fun r : Nat × Nat => (r.1, some r.2)), (r.2 : Option Nat).isSome = true := by
        intro r hr
        rcases List.mem_map.mp hr with ⟨q, _, rfl⟩
        rfl
      rw [bmem_fromRanges_closed _ hclosed i]
      apply bool_eq_of_iff
      rw [any_map_comp (fun r : Nat × Nat => (r.1, some r.2))
        (fun r => decide (r.1 ≤ i) && decide (i ≤ rangeStop r)) (toRanges a.setIndices)]
      have h3 := inRanges_toRanges a.setIndices i
      rw [mem_setIndices a hfin i] at h3
      exact h3

/-- Witness for C3 at a concrete finite bitmap with set bits 0, 2 and 3. -/
theorem bitmap_string_roundtrip_witness :
    ∃ b, from_string (to_string ⟨[true, false, true, true], false⟩) = some b
      ∧ SetEq b ⟨[true, false, true, true], false⟩ :=
  bitmap_string_roundtrip ⟨[true, false, true, true], false⟩ rfl

/-- C5: common-ancestor computation is reflexive and commutative, and
always terminates with an ancestor of both objects — the root (the empty
path) being an ancestor of every object in the tree. -/
theorem common_ancestor_laws :
    ∀ p q : List Nat,
      commonAncestor p p = p
      ∧ commonAncestor p q = commonAncestor q p
      ∧ isAncestorPath (commonAncestor p q) p
      ∧ isAncestorPath (commonAncestor p q) q
      ∧ isAncestorPath [] p :=
  fun p q => ⟨commonAncestor_refl p, commonAncestor_comm p q,
    (commonAncestor_ancestor p q).1, (commonAncestor_ancestor p q).2, ⟨p, rfl⟩⟩

/-- C4 counterexample: in a loaded tree whose root has a single child with
the same cpuset, the covering search applied to the root's cpuset returns
the child, not the root. -/
theorem covering_search_root_counterexample :
    get_obj_covering_cpuset (HObj.mk {0} [HObj.mk {0} []])
        (HObj.mk {0} [HObj.mk {0} []]).cpuset
      ≠ some (HObj.mk {0} [HObj.mk {0} []]) := by
  intro h
  have hval : get_obj_covering_cpuset (HObj.mk {0} [HObj.mk {0} []])
      (HObj.mk {0} [HObj.mk {0} []]).cpuset = some (HObj.mk {0} []) := by
    rw [get_obj_covering_cpuset, if_neg]
    · rfl
    · rw [not_or]
      exact ⟨Finset.singleton_ne_empty 0, fun hns => hns (Finset.Subset.refl _)⟩
  rw [hval] at h
  have h2 := Option.some_inj.mp h
  have h3 := congrArg HObj.children h2
  simp [HObj.children] at h3

/-- C4 (amended): the covering search starts at the root, descends into the
first child in child order whose cpuset is a superset of the query (the
tie-break), and returns the current object when no child qualifies.
Applied to the root's own non-empty cpuset in a tree satisfying the
containment invariant, it succeeds and returns an object whose cpuset
equals the root's cpuset; that object is the root itself whenever no child
of the root covers the root's cpuset (but may be a strict descendant when a
child shares the root's cpuset). -/
theorem covering_search_root_charn (root : HObj)
    (hne : root.cpuset.Nonempty) (hn : nestedB root = true) :
    ∃ o, get_obj_covering_cpuset root root.cpuset = some o
      ∧ o.cpuset = root.cpuset
      ∧ ((∀ c ∈ root.children, ¬ root.cpuset ⊆ c.cpuset) → o = root)
      ∧ ∀ (set : Finset Nat) (c : HObj) (cs : List HObj),
          set ⊆ c.cpuset → coverStep (c :: cs) set = some (coverDescend c set) := by
  have hspec := coverDescend_spec root root.cpuset hn (Finset.Subset.refl _)
  refine ⟨coverDescend root root.cpuset, ?_, ?_, ?_, ?_⟩
  · rw [get_obj_covering_cpuset, if_neg]
    rw [not_or]
    exact ⟨Finset.nonempty_iff_ne_empty.mp hne, fun hns => hns (Finset.Subset.refl _)⟩
  · exact Finset.Subset.antisymm hspec.2 hspec.1
  · intro hnone
    rcases root with ⟨cp, ch⟩
    rw [coverDescend, (coverStep_none_iff _ ch).mpr hnone]
  · intro set c cs hsubc
    rw [coverStep, if_pos hsubc]

/-- Witness for C4 at a concrete two-package topology with cpusets {0} and
{1} under a root with cpuset {0,1}. -/
theorem covering_search_root_charn_witness :
    ∃ o, get_obj_covering_cpuset
          (HObj.mk {0, 1} [HObj.mk {0} [], HObj.mk {1} []])
          (HObj.mk {0, 1} [HObj.mk {0} [], HObj.mk {1} []]).cpuset = some o
      ∧ o.cpuset = (HObj.mk {0, 1} [HObj.mk {0} [], HObj.mk {1} []]).cpuset
      ∧ ((∀ c ∈ (HObj.mk {0, 1} [HObj.mk {0} [], HObj.mk {1} []]).children,
            ¬ (HObj.mk {0, 1} [HObj.mk {0} [], HObj.mk {1} []]).cpuset ⊆ c.cpuset) →
          o = HObj.mk {0, 1} [HObj.mk {0} [], HObj.mk {1} []])
      ∧ ∀ (set : Finset Nat) (c : HObj) (cs : List HObj),
          set ⊆ c.cpuset → coverStep (c :: cs) set = some (coverDescend c set) :=
  covering_search_root_charn (HObj.mk {0, 1} [HObj.mk {0} [], HObj.mk {1} []])
    (by decide) (by decide)

/-- C6 counterexample: with one item and two roots of weights 6 and 2, the
second root receives no item, so the union of the output cpusets is a
strict subset of the union of the roots' cpusets. -/
theorem distrib_union_counterexample :
    unionAll (distrib [({0, 1, 2, 3, 4, 5} : Finset Nat), {6, 7}] 1)
      ≠ unionAll [({0, 1, 2, 3, 4, 5} : Finset Nat), {6, 7}] := by decide

/-- C6 (amended): the distributor allocates items to roots by the quota
apportionment `ceil(W≤i·n/tot) - ceil(W<i·n/tot)`, whose per-root chunks
sum exactly to `n`; for `n = 4` and weights 6 and 2 the allocation is
`[3, 1]`; exactly `n` output cpusets are produced; their union is always a
subset of the union of the input roots' cpusets, with equality whenever
every root's allocation is positive (a root whose allocation is zero is
left out of the union). -/
theorem distrib_apportionment (roots : List (Finset Nat)) (n : Nat)
    (htot : 0 < (roots.map Finset.card).sum) :
    (distribChunks (roots.map Finset.card) n).sum = n
    ∧ (distrib roots n).length = n
    ∧ distribChunks [6, 2] 4 = [3, 1]
    ∧ (∀ x ∈ unionAll (distrib roots n), x ∈ unionAll roots)
    ∧ ((∀ c ∈ distribChunks (roots.map Finset.card) n, 0 < c) →
        unionAll (distrib roots n) = unionAll roots) := by
  have hsum : (distribChunks (roots.map Finset.card) n).sum = n := by
    rw [distribChunks, chunksAux_sum, Nat.zero_add, Nat.zero_mul,
      ceilDiv_zero_num, ceilDiv_mul_self _ _ htot, Nat.sub_zero]
  refine ⟨hsum, ?_, by decide, ?_, ?_⟩
  · rw [distrib, distribAux_length]
    exact hsum
  · intro x hx
    exact distribAux_union_subset _ n roots 0 x hx
  · intro hpos
    exact distribAux_union_eq_of_pos _ n roots 0 hpos

/-- Witness for C6 at two singleton roots and two items (all chunks
positive, union preserved). -/
theorem distrib_apportionment_witness :
    (distribChunks ([({0} : Finset Nat), {1}].map Finset.card) 2).sum = 2
    ∧ (distrib [({0} : Finset Nat), {1}] 2).length = 2
    ∧ distribChunks [6, 2] 4 = [3, 1]
    ∧ (∀ x ∈ unionAll (distrib [({0} : Finset Nat), {1}] 2),
        x ∈ unionAll [({0} : Finset Nat), {1}])
    ∧ ((∀ c ∈ distribChunks ([({0} : Finset Nat), {1}].map Finset.card) 2, 0 < c) →
        unionAll (distrib [({0} : Finset Nat), {1}] 2)
          = unionAll [({0} : Finset Nat), {1}]) :=
  distrib_apportionment [({0} : Finset Nat), {1}] 2 (by decide)

/-- C9: `remove_by_type` returns success, keeps exactly the distance
matrices whose declared type differs from the requested one (leaving them
untouched), is a success no-op when nothing matches, and is idempotent. -/
theorem distances_remove_by_type_spec (topo : TopologyD) (ty : ObjType) :
    (distances_remove_by_type topo ty).2 = 0
    ∧ (∀ d ∈ (distances_remove_by_type topo ty).1.distances,
        d.dtype ≠ ty ∧ d ∈ topo.distances)
    ∧ (∀ d ∈ topo.distances, d.dtype ≠ ty →
        d ∈ (distances_remove_by_type topo ty).1.distances)
    ∧ ((∀ d ∈ topo.distances, d.dtype ≠ ty) →
        (distances_remove_by_type topo ty).1 = topo)
    ∧ distances_remove_by_type ((distances_remove_by_type topo ty).1) ty
        = distances_remove_by_type topo ty := by
  refine ⟨rfl, ?_, ?_, ?_, ?_⟩
  · intro d hd
    rw [show (distances_remove_by_type topo ty).1.distances
        = topo.distances.filter (fun d => !(decide (d.dtype = ty))) from rfl,
      List.mem_filter] at hd
    refine ⟨?_, hd.1⟩
    have h2 : d.dtype ≠ ty := by simpa using hd.2
    exact h2
  · intro d hd hne
    rw [show (distances_remove_by_type topo ty).1.distances
        = topo.distances.filter (fun d => !(decide (d.dtype = ty))) from rfl,
      List.mem_filter]
    exact ⟨hd, by simp [hne]⟩
  · intro hall
    rcases topo with ⟨ds⟩
    show (⟨ds.filter (fun d => !(decide (d.dtype = ty)))⟩ : TopologyD) = ⟨ds⟩
    congr 1
    rw [List.filter_eq_self]
    intro d hd
    simp [hall d hd]
  · rcases topo with ⟨ds⟩
    show (((⟨(ds.filter (fun d => !(decide (d.dtype = ty)))).filter
        (fun d => !(decide (d.dtype = ty)))⟩ : TopologyD), (0 : Int))
        : TopologyD × Int)
      = ((⟨ds.filter (fun d => !(decide (d.dtype = ty)))⟩ : TopologyD), 0)
    congr 2
    rw [List.filter_filter]
    congr 1
    funext d
    rw [Bool.and_self]

/-- C8: `type_depth` yields either the single depth at which the type
exclusively occurs or one of three distinct sentinels (multiple / none /
unknown); when the type is absent, `type_or_below_depth` and
`type_or_above_depth` walk the depth axis to the first qualifying occupied
depth (which is a genuine in-bounds depth), and report a not-found outcome
rather than clamping to a boundary depth when the walk exhausts the tree. -/
theorem type_depth_resolution (levels : List ObjType) (t : Option ObjType) :
    (t = none → type_depth levels t = TypeDepthResult.unknown)
    ∧ (∀ ty, t = some ty → levels.count ty = 0 →
        type_depth levels t = TypeDepthResult.notFound)
    ∧ (∀ ty, t = some ty → levels.count ty = 1 →
        ∃ d, type_depth levels t = TypeDepthResult.depth d
          ∧ levels[d]? = some ty)
    ∧ (∀ ty, t = some ty → 2 ≤ levels.count ty →
        type_depth levels t = TypeDepthResult.multiple)
    ∧ (TypeDepthResult.multiple ≠ TypeDepthResult.notFound
        ∧ TypeDepthResult.multiple ≠ TypeDepthResult.unknown
        ∧ TypeDepthResult.notFound ≠ TypeDepthResult.unknown)
    ∧ (∀ ty, t = some ty → levels.count ty = 0 →
        ((∀ lv ∈ levels, ¬ typeOrder ty < typeOrder lv) →
            type_or_below_depth levels t = TypeDepthResult.notFound)
          ∧ ∀ d, type_or_below_depth levels t = TypeDepthResult.depth d →
              d < levels.length
                ∧ (∃ lv, levels[d]? = some lv ∧ typeOrder ty < typeOrder lv)
                ∧ ∀ j < d, ∀ lv2, levels[j]? = some lv2 →
                    ¬ typeOrder ty < typeOrder lv2)
    ∧ (∀ ty, t = some ty → levels.count ty = 0 →
        ((∀ lv ∈ levels, ¬ typeOrder lv < typeOrder ty) →
            type_or_above_depth levels t = TypeDepthResult.notFound)
          ∧ ∀ d, type_or_above_depth levels t = TypeDepthResult.depth d →
              d < levels.length
                ∧ ∃ lv, levels[d]? = some lv ∧ typeOrder lv < typeOrder ty) := by
  refine ⟨?_, ?_, ?_, ?_, ⟨by decide, by decide, by decide⟩, ?_, ?_⟩
  · rintro rfl
    rfl
  · rintro ty rfl hc
    exact type_depth_some_none levels ty (findFirst_type_none_of_count levels ty hc)
  · rintro ty rfl hc
    rcases findFirst_type_some_of_count levels ty (by omega) with ⟨d, hf⟩
    refine ⟨d, ?_, ?_⟩
    · rw [type_depth_some_found levels ty d hf, if_pos hc]
    · rcases findFirst_eq_some _ levels d hf with ⟨_, ⟨lv, hget, hplv⟩, _⟩
      rw [decide_eq_true_eq] at hplv
      rw [hget, hplv]
  · rintro ty rfl hc
    rcases findFirst_type_some_of_count levels ty (by omega) with ⟨d, hf⟩
    rw [type_depth_some_found levels ty d hf, if_neg (by omega)]
  · rintro ty rfl hc
    have hnf : type_depth levels (some ty) = TypeDepthResult.notFound :=
      type_depth_some_none levels ty (findFirst_type_none_of_count levels ty hc)
    constructor
    · intro hnone
      rw [type_or_below_some_notFound levels ty hnf,
        (findFirst_eq_none_iff _ levels).mpr
          (fun lv hlv => by simpa using hnone lv hlv)]
    · intro d hd
      rw [type_or_below_some_notFound levels ty hnf] at hd
      rcases hff : findFirst (fun lv => decide (typeOrder ty < typeOrder lv))
          levels with _ | d0
      · rw [hff] at hd
        exact absurd hd (by simp)
      · rw [hff] at hd
        have hdd : d0 = d := by
          have := TypeDepthResult.depth.inj hd
          exact this
        subst hdd
        rcases findFirst_eq_some _ levels d0 hff with ⟨hlen, ⟨lv, hget, hplv⟩, hmin⟩
        rw [decide_eq_true_eq] at hplv
        refine ⟨hlen, ⟨lv, hget, hplv⟩, ?_⟩
        intro j hj lv2 hget2
        have := hmin j hj lv2 hget2
        simpa using this
  · rintro ty rfl hc
    have hnf : type_depth levels (some ty) = TypeDepthResult.notFound :=
      type_depth_some_none levels ty (findFirst_type_none_of_count levels ty hc)
    constructor
    · intro hnone
      rw [type_or_above_some_notFound levels ty hnf,
        (findFirst_eq_none_iff _ levels.reverse).mpr
          (fun lv hlv => by simpa using hnone lv (List.mem_reverse.mp hlv))]
    · intro d hd
      rw [type_or_above_some_notFound levels ty hnf] at hd
      rcases hff : findFirst (fun lv => decide (typeOrder lv < typeOrder ty))
          levels.reverse with _ | dr
      · rw [hff] at hd
        exact absurd hd (by simp)
      · rw [hff] at hd
        have hdd : levels.length - 1 - dr = d := TypeDepthResult.depth.inj hd
        rcases findFirst_eq_some _ levels.reverse dr hff with
          ⟨hlen, ⟨lv, hget, hplv⟩, _⟩
        rw [List.length_reverse] at hlen
        rw [decide_eq_true_eq] at hplv
        subst hdd
        refine ⟨by omega, ⟨lv, ?_, hplv⟩⟩
        rw [List.getElem?_reverse (by omega)] at hget
        exact hget

/-- C1: evaluated at a successful call, the wrapper `pyhwloc_bitmap_alloc`
agrees with the single-allocation pass-through on the returned status and
the out-parameter, but it is not a thin pass-through: the stray
`hwloc_bitmap_alloc_full()` call (src/unnamed/part_004, line 21) performs a
second allocation whose result is discarded, so after one call two bitmaps
are live instead of one — a leak on every call. -/
theorem pyhwloc_bitmap_alloc_leaks :
    (pyhwloc_bitmap_alloc true true none ⟨0, []⟩).1
        = (pyhwloc_bitmap_alloc_spec_view true none ⟨0, []⟩).1
    ∧ (pyhwloc_bitmap_alloc true true none ⟨0, []⟩).2.1
        = (pyhwloc_bitmap_alloc_spec_view true none ⟨0, []⟩).2.1
    ∧ (pyhwloc_bitmap_alloc true true none ⟨0, []⟩).2.2.live.length = 2
    ∧ (pyhwloc_bitmap_alloc_spec_view true none ⟨0, []⟩).2.2.live.length = 1 := by
  refine ⟨rfl, rfl, rfl, rfl⟩

/-- C10: each of `pyhwloc_bitmap_alloc` and `pyhwloc_bitmap_alloc_full`
has exactly two outcomes: status 0 with a non-null freshly allocated
bitmap stored through the out-parameter, or — when the underlying
allocation returns NULL — status 1 with the out-parameter left unwritten;
the status is 0 exactly when the allocation succeeded. -/
theorem pyhwloc_bitmap_alloc_out_contract (ok1 ok2 ok : Bool)
    (out : Option Nat) (s : AllocState) (hwf : ∀ q ∈ s.live, q ≤ s.next) :
    (((pyhwloc_bitmap_alloc ok1 ok2 out s).1 = 0
        ∧ ∃ p, (pyhwloc_bitmap_alloc ok1 ok2 out s).2.1 = some p
            ∧ p ≠ 0 ∧ p ∈ (pyhwloc_bitmap_alloc ok1 ok2 out s).2.2.live
            ∧ p ∉ s.live)
      ∨ ((pyhwloc_bitmap_alloc ok1 ok2 out s).1 = 1
          ∧ (pyhwloc_bitmap_alloc ok1 ok2 out s).2.1 = out))
    ∧ ((pyhwloc_bitmap_alloc ok1 ok2 out s).1 = 0 ↔ ok1 = true)
    ∧ (((pyhwloc_bitmap_alloc_full ok out s).1 = 0
        ∧ ∃ p, (pyhwloc_bitmap_alloc_full ok out s).2.1 = some p
            ∧ p ≠ 0 ∧ p ∈ (pyhwloc_bitmap_alloc_full ok out s).2.2.live
            ∧ p ∉ s.live)
      ∨ ((pyhwloc_bitmap_alloc_full ok out s).1 = 1
          ∧ (pyhwloc_bitmap_alloc_full ok out s).2.1 = out))
    ∧ ((pyhwloc_bitmap_alloc_full ok out s).1 = 0 ↔ ok = true) := by
  have hfresh : s.next + 1 ∉ s.live := by
    intro hmem
    have := hwf _ hmem
    omega
  refine ⟨?_, ?_, ?_, ?_⟩
  · cases ok1
    · exact Or.inr ⟨rfl, rfl⟩
    · cases ok2
      · exact Or.inl ⟨rfl, s.next + 1, rfl, by omega,
          List.mem_cons_self _ _, hfresh⟩
      · exact Or.inl ⟨rfl, s.next + 1, rfl, by omega,
          List.mem_cons_of_mem _ (List.mem_cons_self _ _), hfresh⟩
  · cases ok1
    · simp [pyhwloc_bitmap_alloc, hwloc_bitmap_alloc_full, hwloc_bitmap_alloc]
    · simp [pyhwloc_bitmap_alloc, hwloc_bitmap_alloc_full, hwloc_bitmap_alloc]
  · cases ok
    · exact Or.inr ⟨rfl, rfl⟩
    · exact Or.inl ⟨rfl, s.next + 1, rfl, by omega,
        List.mem_cons_self _ _, hfresh⟩
  · cases ok
    · simp [pyhwloc_bitmap_alloc_full, hwloc_bitmap_alloc_full, hwloc_bitmap_alloc]
    · simp [pyhwloc_bitmap_alloc_full, hwloc_bitmap_alloc_full, hwloc_bitmap_alloc]

/-- Witness for C10 at a successful call on the empty allocator state. -/
theorem pyhwloc_bitmap_alloc_out_contract_witness :
    (((pyhwloc_bitmap_alloc true true none ⟨0, []⟩).1 = 0
        ∧ ∃ p, (pyhwloc_bitmap_alloc true true none ⟨0, []⟩).2.1 = some p
            ∧ p ≠ 0 ∧ p ∈ (pyhwloc_bitmap_alloc true true none ⟨0, []⟩).2.2.live
            ∧ p ∉ (⟨0, []⟩ : AllocState).live)
      ∨ ((pyhwloc_bitmap_alloc true true none ⟨0, []⟩).1 = 1
          ∧ (pyhwloc_bitmap_alloc true true none ⟨0, []⟩).2.1 = none))
    ∧ ((pyhwloc_bitmap_alloc true true none ⟨0, []⟩).1 = 0 ↔ true = true)
    ∧ (((pyhwloc_bitmap_alloc_full true none ⟨0, []⟩).1 = 0
        ∧ ∃ p, (pyhwloc_bitmap_alloc_full true none ⟨0, []⟩).2.1 = some p
            ∧ p ≠ 0 ∧ p ∈ (pyhwloc_bitmap_alloc_full true none ⟨0, []⟩).2.2.live
            ∧ p ∉ (⟨0, []⟩ : AllocState).live)
      ∨ ((pyhwloc_bitmap_alloc_full true none ⟨0, []⟩).1 = 1
          ∧ (pyhwloc_bitmap_alloc_full true none ⟨0, []⟩).2.1 = none))
    ∧ ((pyhwloc_bitmap_alloc_full true none ⟨0, []⟩).1 = 0 ↔ true = true) :=
  pyhwloc_bitmap_alloc_out_contract true true true none ⟨0, []⟩ (by simp)
